import Mathlib

/-!
Verification development for the `yurl` URL library.

The Python source (`yurl/__init__.py`) is embedded shallowly: Python strings
become `List Char`, the splitting regular expression becomes a deterministic
pipeline of `takeWhile`/`dropWhile` steps (the pattern is non-ambiguous: every
star is over a character class excluding its follow character, so the greedy
match never backtracks), fallible operations return `Except`.

`remove_dot_segments` lives in `yurl/utils.py`, which is not part of the
sources; it is modelled from the specification (Dot-Segment Normalizer,
spec section 4.6, RFC 3986 section 5.2.4).
-/

namespace Yurl

/-- Python strings are modelled as lists of characters. -/
abbrev Str := List Char

/-- Coerce a Lean string literal to the model type. -/
def str (s : String) : Str := s.data

/-- Characters that end the scheme run: the class `[^:/?#]` of the split
regex complemented. -/
def isStop (c : Char) : Bool := c == ':' || c == '/' || c == '?' || c == '#'

/-- Characters that end the authority block: complement of `[^/?#]`. -/
def isRegStop (c : Char) : Bool := c == '/' || c == '?' || c == '#'

/-- Characters that end the path: complement of `[^?#]`. -/
def isPQ (c : Char) : Bool := c == '?' || c == '#'

/-- The seven stored components of `URLTuple` (scheme, userinfo, host, port,
path, query, fragment), in source order. -/
structure URL where
  scheme : Str
  userinfo : Str
  host : Str
  port : Str
  path : Str
  query : Str
  fragment : Str
deriving DecidableEq

/-- Python `str.lower()`, restricted to the ASCII letters (the only case the
library's inputs exercise): maps `A`-`Z` to `a`-`z` characterwise. -/
def lower (s : Str) : Str := s.map Char.toLower

/-- The scheme part of `_split_re`: `(?:([^:/?#]+):)?`.  The run before the
first stop character is a scheme exactly when it is non-empty and that stop
character is a colon (which is consumed). -/
def splitScheme (s : Str) : Str × Str :=
  let run := s.takeWhile (fun c => !isStop c)
  let rest := s.dropWhile (fun c => !isStop c)
  if rest.head? = some ':' ∧ run ≠ [] then (run, rest.tail) else ([], s)

/-- The authority part of `_split_re`: `(?://(?:([^/?#@]*)@)?([^/?#]*)())?`.
Fires only on a leading `//`; inside the block everything up to the first of
`/?#` is the authority region, split at its first `@` into userinfo and
host:port candidate when an `@` is present.  Returns
(userinfo, host:port candidate, rest). -/
def splitAuthority (s : Str) : Str × Str × Str :=
  if s.take 2 = ['/', '/'] then
    let r := s.drop 2
    let reg := r.takeWhile (fun c => !isRegStop c)
    let rest := r.dropWhile (fun c => !isRegStop c)
    let ui := reg.takeWhile (fun c => c != '@')
    if ui.length < reg.length then (ui, reg.drop (ui.length + 1), rest)
    else ([], reg, rest)
  else ([], [], s)

/-- The path part of `_split_re`: `([^?#]*)`. -/
def splitPath (s : Str) : Str × Str :=
  (s.takeWhile (fun c => !isPQ c), s.dropWhile (fun c => !isPQ c))

/-- The query part of `_split_re`: `\??([^#]*)`. -/
def splitQuery (s : Str) : Str × Str :=
  let t := if s.head? = some '?' then s.tail else s
  (t.takeWhile (fun c => c != '#'), t.dropWhile (fun c => c != '#'))

/-- The fragment part of `_split_re`: `\#?(.*)` (with DOTALL). -/
def splitFragment (s : Str) : Str :=
  if s.head? = some '#' then s.tail else s

/-- Python `host.rfind(':')` followed by slicing: splits at the last colon,
returning the text before and after it, or `none` when there is no colon. -/
def lastColonSplit (h : Str) : Option (Str × Str) :=
  let rest := h.reverse.dropWhile (fun c => c != ':')
  if rest = [] then none
  else some (rest.tail.reverse, (h.reverse.takeWhile (fun c => c != ':')).reverse)

/-- The secondary host/port split of `URL.__new__` (lines 55-59): split the
host:port candidate at its last colon when the text after it is empty or all
digits; otherwise keep the candidate whole and the port unchanged. -/
def portResplit (host port : Str) : Str × Str :=
  match lastColonSplit host with
  | some p => if p.2.isEmpty || p.2.all Char.isDigit then (p.1, p.2) else (host, port)
  | none => (host, port)

/-- The Splitter: the seven raw components of a string, as computed by
`URL.__new__` lines 48-59 (regex groups followed by the host/port
re-split), before any canonicalization. -/
def rawSplit (u : Str) : URL :=
  let sps := splitScheme u
  let spa := splitAuthority sps.2
  let spp := splitPath spa.2.2
  let spq := splitQuery spp.2
  let f := splitFragment spq.2
  let hpo := portResplit spa.2.1 []
  ⟨sps.1, spa.1, hpo.1, hpo.2, spp.1, spq.1, f⟩

/-- `URL.__new__`: given a source string, split it (all component arguments
are ignored); otherwise take the explicit components, inserting a leading
slash into a non-empty relative path when an authority component is present.
Either way the result stores `scheme` and `host` lowercased. -/
def urlNew (url : Option Str) (scheme userinfo host port path query fragment : Str) : URL :=
  match url with
  | some u =>
    let t := rawSplit u
    ⟨lower t.scheme, t.userinfo, lower t.host, t.port, t.path, t.query, t.fragment⟩
  | none =>
    let path2 :=
      if (userinfo ≠ [] ∨ host ≠ [] ∨ port ≠ []) ∧ path ≠ [] ∧ path.head? ≠ some '/'
      then '/' :: path else path
    ⟨lower scheme, userinfo, lower host, port, path2, query, fragment⟩

/-- `URL(url)`: parse a string. -/
def parse (s : Str) : URL := urlNew (some s) [] [] [] [] [] [] []

/-- `URL(None, scheme, ..., fragment)`: build from explicit components. -/
def build (scheme userinfo host port path query fragment : Str) : URL :=
  urlNew none scheme userinfo host port path query fragment

/-- The host[:port] part of the `authority` property: append `:port` when a
port is stored; otherwise append a bare `:` when the host itself ends in
colon-plus-digits (so that the re-parse puts the digits back into the host). -/
def hostportSer (u : URL) : Str :=
  if u.port ≠ [] then u.host ++ ':' :: u.port
  else
    match lastColonSplit u.host with
    | some p => if ¬p.2.isEmpty ∧ p.2.all Char.isDigit then u.host ++ [':'] else u.host
    | none => u.host

/-- The `authority` property: `[userinfo@]host[:port]`. -/
def authority (u : URL) : Str :=
  if u.userinfo ≠ [] then u.userinfo ++ '@' :: hostportSer u else hostportSer u

/-- The `full_path` property: `path[?query][#fragment]`. -/
def full_path (u : URL) : Str :=
  let p1 := if u.query ≠ [] then u.path ++ '?' :: u.query else u.path
  if u.fragment ≠ [] then p1 ++ '#' :: u.fragment else p1

/-- The query/fragment tail of `full_path`: `[?query][#fragment]`. -/
def fpTail (u : URL) : Str :=
  (if u.query ≠ [] then '?' :: u.query else []) ++
  (if u.fragment ≠ [] then '#' :: u.fragment else [])

/-- `URL.__unicode__` / `as_string`: serialize.  A non-empty authority, or a
path starting with `//`, is rendered behind `//`; a scheme-less URL whose
path carries a colon in its first segment at a positive offset is protected
with `./`; a scheme is rendered with its trailing colon. -/
def as_string (u : URL) : Str :=
  let base := authority u
  let base :=
    if base ≠ [] ∨ u.path.take 2 = ['/', '/'] then '/' :: '/' :: base
    else if u.scheme = [] ∧ u.path ≠ [] then
      let fs := u.path.takeWhile (fun c => c != ':')
      if 0 < fs.length ∧ fs.length < u.path.length ∧ fs.contains '/' = false
      then ['.', '/'] else []
    else base
  let base := if u.scheme ≠ [] then u.scheme ++ ':' :: base else base
  base ++ full_path u

/-- `URL.__nonzero__` / `__bool__`: `any(self)` over the seven components. -/
def nonzero (u : URL) : Bool :=
  [u.scheme, u.userinfo, u.host, u.port, u.path, u.query, u.fragment].any
    (fun s => !s.isEmpty)

/-! ### Validation -/

/-- The five validation error kinds raised by `URL.validate`. -/
inductive VError
  | invalidScheme
  | invalidUserinfo
  | invalidHost
  | invalidPath
  | invalidQuery
deriving DecidableEq

/-- Python `re.match` against an anchored pattern `^body$`, without
MULTILINE: the dollar matches at the end of the string, or just before a
single newline that ends the string. -/
def pyFullMatch (body : Str → Bool) (s : Str) : Bool :=
  body s || (s.getLast? == some '\n' && body s.dropLast)

/-- The body of `_valid_scheme_re`: `[a-z][a-z0-9+\-.]*`. -/
def schemeBody : Str → Bool
  | [] => false
  | c :: r =>
    c.isLower && r.all (fun d => d.isLower || d.isDigit || d == '+' || d == '-' || d == '.')

/-- `_valid_scheme_re`: `^[a-z][a-z0-9+\-.]*$` under Python dollar
semantics — the class excludes the newline, so the dollar's acceptance of
one trailing newline is observable and must be modelled. -/
def validSchemeStr (s : Str) : Bool := pyFullMatch schemeBody s

/-- `_valid_userinfo_re`: `^[^/?#@\[\]]+$`.  The negated class admits the
newline, so the dollar-before-trailing-newline acceptance adds nothing:
any string accepted through it is accepted with the class consuming the
newline itself.  The same holds for the reg-name, path and query
patterns below. -/
def validUserinfoStr (s : Str) : Bool :=
  !s.isEmpty && s.all (fun c =>
    !(c == '/' || c == '?' || c == '#' || c == '@' || c == '[' || c == ']'))

/-- `_valid_reg_name_re`: `^[^/?#@\[\]:]+$`. -/
def validRegNameStr (s : Str) : Bool :=
  !s.isEmpty && s.all (fun c =>
    !(c == '/' || c == '?' || c == '#' || c == '@' || c == '[' || c == ']' || c == ':'))

/-- `_valid_path_re`: `^[^?#]+$`. -/
def validPathStr (s : Str) : Bool := !s.isEmpty && s.all (fun c => !isPQ c)

/-- `_valid_query_re`: `^[^#]+$`. -/
def validQueryStr (s : Str) : Bool := !s.isEmpty && s.all (fun c => c != '#')

/-- A hexadecimal digit, either case (`[a-f0-9]` under IGNORECASE). -/
def isHexChar (c : Char) : Bool :=
  c.isDigit || ('a' ≤ c && c ≤ 'f') || ('A' ≤ c && c ≤ 'F')

/-- The tail class of the IPvFuture branch:
`[a-z0-9\-._~!$&'()*,;=:]` under IGNORECASE. -/
def isVTailChar (c : Char) : Bool :=
  c.isLower || c.isUpper || c.isDigit ||
    c == '-' || c == '.' || c == '_' || c == '~' || c == '!' || c == '$' ||
    c == '&' || c == '\'' || c == '(' || c == ')' || c == '*' || c == ',' ||
    c == ';' || c == '=' || c == ':'

/-- The body of `_valid_ip_literal_re`: either the IPvFuture form
`v<hex>+.<tail>+` or a non-empty run of hex digits, colons and dots (both
case-insensitive). -/
def ipLiteralBody (s : Str) : Bool :=
  (match s with
   | c :: r =>
     (c == 'v' || c == 'V') &&
     (let hx := r.takeWhile isHexChar
      !hx.isEmpty &&
      (match r.drop hx.length with
       | '.' :: t => !t.isEmpty && t.all isVTailChar
       | _ => false))
   | [] => false)
  || (!s.isEmpty && s.all (fun c => isHexChar c || c == ':' || c == '.'))

/-- `_valid_ip_literal_re`, anchored `^body$` under Python dollar
semantics: both alternatives exclude the newline, so the dollar's
acceptance of one trailing newline is observable and must be modelled. -/
def validIpLiteralStr (s : Str) : Bool := pyFullMatch ipLiteralBody s

/-- The host check of `URL.validate`: a bracketed host is checked as an IP
literal (on the text inside the brackets), any other host as a reg-name. -/
def hostBad (h : Str) : Bool :=
  if h.head? = some '[' ∧ h.getLast? = some ']'
  then !validIpLiteralStr ((h.drop 1).dropLast)
  else !validRegNameStr h

/-- `URL.validate`: check the non-empty components in source order, raising
the matching error kind at the first violation, else return the URL. -/
def validate (u : URL) : Except VError URL :=
  if u.scheme ≠ [] ∧ validSchemeStr u.scheme = false then .error .invalidScheme
  else if u.userinfo ≠ [] ∧ validUserinfoStr u.userinfo = false then .error .invalidUserinfo
  else if u.host ≠ [] ∧ hostBad u.host = true then .error .invalidHost
  else if u.path ≠ [] ∧ validPathStr u.path = false then .error .invalidPath
  else if u.query ≠ [] ∧ validQueryStr u.query = false then .error .invalidQuery
  else .ok u

/-! ### Dot-segment removal (modelled from the spec) -/

/-- Remove the last output segment together with its preceding slash, if
any: RFC 3986 section 5.2.4 step 2C on the output buffer. -/
def popSegment (out : Str) : Str :=
  ((out.reverse.dropWhile (fun c => c != '/')).drop 1).reverse

/-- One fuelled pass of the dot-segment loop; the fuel only bounds the
number of iterations, each of which consumes at least one input character. -/
def rdsAux : Nat → Str → Str → Str
  | 0, _, out => out
  | n + 1, inp, out =>
    match inp with
    | [] => out
    | _ =>
      if inp.take 3 = ['.', '.', '/'] then rdsAux n (inp.drop 3) out
      else if inp.take 2 = ['.', '/'] then rdsAux n (inp.drop 2) out
      else if inp.take 3 = ['/', '.', '/'] then rdsAux n ('/' :: inp.drop 3) out
      else if inp = ['/', '.'] then rdsAux n ['/'] out
      else if inp.take 4 = ['/', '.', '.', '/'] then rdsAux n ('/' :: inp.drop 4) (popSegment out)
      else if inp = ['/', '.', '.'] then rdsAux n ['/'] (popSegment out)
      else if inp = ['.'] ∨ inp = ['.', '.'] then rdsAux n [] out
      else
        match inp with
        | '/' :: t =>
          let seg := t.takeWhile (fun c => c != '/')
          rdsAux n (t.drop seg.length) (out ++ '/' :: seg)
        | _ =>
          let seg := inp.takeWhile (fun c => c != '/')
          rdsAux n (inp.drop seg.length) (out ++ seg)

/-- Modelled from the spec: the Dot-Segment Normalizer of section 4.6,
implementing RFC 3986 section 5.2.4 (the defining source file,
`yurl/utils.py`, is not included in the repository sources).  Segments `.`
and `..` are consumed left to right against an output buffer; an excess
`..` at the root finds no segment to remove and is dropped silently. -/
def remove_dot_segments (p : Str) : Str := rdsAux (p.length + 1) p []

/-! ### Combinators -/

/-- Everything in a path up to and including its last slash (empty when the
path has no slash): Python `path.rpartition('/')`, keeping parts 0 and 1. -/
def upToLastSlash (p : Str) : Str :=
  (p.reverse.dropWhile (fun c => c != '/')).reverse

/-- `URL.__add__`: RFC 3986 reference resolution of `other` against `self`.
The merged or chosen path always passes through `remove_dot_segments`, and
the result is built by the constructor. -/
def add (self other : URL) : URL :=
  if other.scheme = [] then
    if other.host = [] ∧ other.userinfo = [] ∧ other.port = [] then
      if other.path = [] then
        let query := if other.query = [] then self.query else other.query
        urlNew none self.scheme self.userinfo self.host self.port
          (remove_dot_segments self.path) query other.fragment
      else
        let path :=
          if other.path.head? = some '/' then other.path
          else upToLastSlash self.path ++ other.path
        urlNew none self.scheme self.userinfo self.host self.port
          (remove_dot_segments path) other.query other.fragment
    else
      urlNew none self.scheme other.userinfo other.host other.port
        (remove_dot_segments other.path) other.query other.fragment
  else
    urlNew none other.scheme other.userinfo other.host other.port
      (remove_dot_segments other.path) other.query other.fragment

/-- Python truthiness of an optional-string keyword argument: `None` and the
empty string are falsy. -/
def truthy (o : Option Str) : Bool :=
  match o with
  | none => false
  | some s => !s.isEmpty

/-- `URL.replace`: override the supplied fields.  The combined `authority`
shortcut conflicts (with a `TypeError`, modelled as `.error ()`) with a
truthy `host`, `userinfo` or `port`; it is parsed by applying the
constructor to `'//' + authority`.  The combined `full_path` shortcut
behaves likewise against `path`, `query` and `fragment`. -/
def replace (self : URL) (scheme userinfo host port path query fragment
    authorityArg fullPathArg : Option Str) : Except Unit URL :=
  if authorityArg.isSome ∧ (truthy host ∨ truthy userinfo ∨ truthy port) then .error ()
  else
    let userinfo2 := match authorityArg with
      | some a => some (urlNew (some ('/' :: '/' :: a)) [] [] [] [] [] [] []).userinfo
      | none => userinfo
    let host2 := match authorityArg with
      | some a => some (urlNew (some ('/' :: '/' :: a)) [] [] [] [] [] [] []).host
      | none => host
    let port2 := match authorityArg with
      | some a => some (urlNew (some ('/' :: '/' :: a)) [] [] [] [] [] [] []).port
      | none => port
    if fullPathArg.isSome ∧ (truthy path ∨ truthy query ∨ truthy fragment) then .error ()
    else
      let path2 := match fullPathArg with
        | some fp => some (urlNew (some fp) [] [] [] [] [] [] []).path
        | none => path
      let query2 := match fullPathArg with
        | some fp => some (urlNew (some fp) [] [] [] [] [] [] []).query
        | none => query
      let fragment2 := match fullPathArg with
        | some fp => some (urlNew (some fp) [] [] [] [] [] [] []).fragment
        | none => fragment
      .ok (urlNew none (scheme.getD self.scheme) (userinfo2.getD self.userinfo)
        (host2.getD self.host) (port2.getD self.port) (path2.getD self.path)
        (query2.getD self.query) (fragment2.getD self.fragment))

/-- `URL.setdefault`: per-field first-non-empty merge, rebuilt through the
constructor. -/
def setdefault (self : URL) (scheme userinfo host port path query fragment : Str) : URL :=
  urlNew none
    (if self.scheme ≠ [] then self.scheme else scheme)
    (if self.userinfo ≠ [] then self.userinfo else userinfo)
    (if self.host ≠ [] then self.host else host)
    (if self.port ≠ [] then self.port else port)
    (if self.path ≠ [] then self.path else path)
    (if self.query ≠ [] then self.query else query)
    (if self.fragment ≠ [] then self.fragment else fragment)

/-! ### Definitions used to state the claims -/

instance exceptDecEq {ε α : Type} [DecidableEq ε] [DecidableEq α] : DecidableEq (Except ε α)
  | .error e, .error e' =>
    if h : e = e' then .isTrue (by rw [h]) else .isFalse (fun hh => h (by cases hh; rfl))
  | .error _, .ok _ => .isFalse (fun hh => by cases hh)
  | .ok _, .error _ => .isFalse (fun hh => by cases hh)
  | .ok a, .ok b =>
    if h : a = b then .isTrue (by rw [h]) else .isFalse (fun hh => h (by cases hh; rfl))

/-- The host:port candidate the primary split hands to the secondary
host/port step. -/
def hostportCandidate (s : Str) : Str := (splitAuthority (splitScheme s).2).2.1

/-- The (amended) secondary-split description: split the candidate at its
last colon exactly when the text after that colon is empty or consists
entirely of digits (the port being that text); otherwise the whole
candidate is the host and the port is empty. -/
def resplitSpec (hp : Str) : Str × Str :=
  match lastColonSplit hp with
  | some p => if p.2 = [] ∨ p.2.all Char.isDigit = true then (p.1, p.2) else (hp, [])
  | none => (hp, [])

/-- The serializer's step-3 condition as the code implements it: scheme-less,
non-empty path whose first colon sits at a positive offset with no slash
before it. -/
def dotSlashCond (u : URL) : Prop :=
  u.scheme = [] ∧
    0 < (u.path.takeWhile (fun c => c != ':')).length ∧
    (u.path.takeWhile (fun c => c != ':')).length < u.path.length ∧
    (u.path.takeWhile (fun c => c != ':')).contains '/' = false

instance : DecidablePred dotSlashCond := fun u => by unfold dotSlashCond; infer_instance

/-- No ASCII uppercase letter (code points 65-90) occurs in the string. -/
def noUpper (s : Str) : Prop := ∀ c ∈ s, ¬(65 ≤ c.toNat ∧ c.toNat ≤ 90)

/-- Both case-normalized components of a `replace` result are free of ASCII
uppercase letters (trivially true of an error result). -/
def lowerHostScheme : Except Unit URL → Prop
  | .ok u => noUpper u.scheme ∧ noUpper u.host
  | .error _ => True

/-- The claim-side scheme grammar, as amended: `[a-z][a-z0-9+.-]*` read
under Python dollar semantics, i.e. with an optional single trailing
newline accepted. -/
def schemeGrammarSpec (s : Str) : Bool := pyFullMatch schemeBody s

/-- The claim-side userinfo grammar: none of `/ ? # @ [ ]` (emptiness is
handled by the validator's outer guard). -/
def userinfoGrammarSpec (s : Str) : Bool :=
  s.all (fun c => !(c == '/' || c == '?' || c == '#' || c == '@' || c == '[' || c == ']'))

/-- The claim-side grammar for an unbracketed host: none of `/ ? # @ [ ] :`. -/
def regNameGrammarSpec (s : Str) : Bool :=
  s.all (fun c => !(c == '/' || c == '?' || c == '#' || c == '@' || c == '[' || c == ']' || c == ':'))

/-- The claim-side host grammar: the bracketed form is checked as an IP
literal, every other host as a reg-name. -/
def hostGrammarSpec (h : Str) : Bool :=
  if h.head? = some '[' ∧ h.getLast? = some ']'
  then validIpLiteralStr ((h.drop 1).dropLast)
  else regNameGrammarSpec h

/-- The claim-side description of `validate`: the first violating component
in the order scheme, userinfo, host, path, query (fragment never checked;
empty components always pass), or `none` when every component passes. -/
def firstViolationSpec (u : URL) : Option VError :=
  if u.scheme ≠ [] ∧ schemeGrammarSpec u.scheme = false then some .invalidScheme
  else if u.userinfo ≠ [] ∧ userinfoGrammarSpec u.userinfo = false then some .invalidUserinfo
  else if u.host ≠ [] ∧ hostGrammarSpec u.host = false then some .invalidHost
  else if u.path ≠ [] ∧ (u.path.all (fun c => !isPQ c)) = false then some .invalidPath
  else if u.query ≠ [] ∧ (u.query.all (fun c => c != '#')) = false then some .invalidQuery
  else none

/-- The error component of a validation result, if any. -/
def errOf : Except VError URL → Option VError
  | .ok _ => none
  | .error e => some e

/-- The amended description of `replace`: a type error exactly when a
shortcut is combined with a truthy constituent argument; otherwise each
shortcut is split by the Splitter and assigned field-by-field, every
unsupplied argument is copied from the original URL, and the result is
rebuilt by the constructor. -/
def replaceSpec (self : URL) (scheme userinfo host port path query fragment
    authorityArg fullPathArg : Option Str) : Except Unit URL :=
  if authorityArg.isSome ∧ (truthy host ∨ truthy userinfo ∨ truthy port) then .error ()
  else if fullPathArg.isSome ∧ (truthy path ∨ truthy query ∨ truthy fragment) then .error ()
  else
    .ok (urlNew none (scheme.getD self.scheme)
      (match authorityArg with
       | some x => (rawSplit ('/' :: '/' :: x)).userinfo
       | none => userinfo.getD self.userinfo)
      (match authorityArg with
       | some x => (rawSplit ('/' :: '/' :: x)).host
       | none => host.getD self.host)
      (match authorityArg with
       | some x => (rawSplit ('/' :: '/' :: x)).port
       | none => port.getD self.port)
      (match fullPathArg with
       | some x => (rawSplit x).path
       | none => path.getD self.path)
      (match fullPathArg with
       | some x => (rawSplit x).query
       | none => query.getD self.query)
      (match fullPathArg with
       | some x => (rawSplit x).fragment
       | none => fragment.getD self.fragment))

/-- The shape invariants every parsed URL enjoys, read off the split
pipeline: each component excludes the delimiters that ended it, scheme and
host are lowercase, the port is all digits, and a URL with an authority
component has an empty or absolute path. -/
structure ParseInv (u : URL) : Prop where
  scLower : lower u.scheme = u.scheme
  scStop : ∀ c ∈ u.scheme, isStop c = false
  uiOk : ∀ c ∈ u.userinfo, isRegStop c = false ∧ c ≠ '@'
  hLower : lower u.host = u.host
  hOk : ∀ c ∈ u.host, isRegStop c = false
  poDigit : ∀ c ∈ u.port, c.isDigit = true
  paOk : ∀ c ∈ u.path, isPQ c = false
  qOk : ∀ c ∈ u.query, c ≠ '#'
  authPa : u.userinfo ≠ [] ∨ u.host ≠ [] ∨ u.port ≠ [] → u.path = [] ∨ u.path.head? = some '/'

/-- The amended round-trip precondition: the claim's own disambiguation
condition, strengthened by the two cases its counterexamples force — a
host that ends in a colon while the port is empty (the serializer cannot
protect the trailing colon), and an `@` inside the host while the userinfo
is empty (the serialized authority is re-split at its first `@`). -/
def roundtripSafe (u : URL) : Prop :=
  (authority u ≠ [] ∨
    (u.path.take 2 ≠ ['/', '/'] ∧
      (u.scheme = [] → ':' ∉ u.path.takeWhile (fun c => c != '/')))) ∧
  ¬(u.port = [] ∧ u.host.getLast? = some ':') ∧
  ¬(u.userinfo = [] ∧ '@' ∈ u.host)

instance : DecidablePred roundtripSafe := fun u => by unfold roundtripSafe; infer_instance

/-! ### General lemmas -/

theorem char_eq_of_toNat_eq {a b : Char} (h : a.toNat = b.toNat) : a = b := by
  apply Char.eq_of_val_eq
  exact UInt32.toNat.inj h

theorem toNat_toLower (c : Char) :
    c.toLower.toNat = if 65 ≤ c.toNat ∧ c.toNat ≤ 90 then c.toNat + 32 else c.toNat := by
  unfold Char.toLower
  by_cases h : 65 ≤ c.toNat ∧ c.toNat ≤ 90
  · rw [if_pos h, if_pos h]
    show (Char.ofNat (c.toNat + 32)).toNat = c.toNat + 32
    unfold Char.ofNat
    rw [dif_pos (Or.inl (by omega))]
    rfl
  · rw [if_neg h, if_neg h]

theorem toLower_not_upper (c : Char) : ¬(65 ≤ c.toLower.toNat ∧ c.toLower.toNat ≤ 90) := by
  have h1 := toNat_toLower c
  by_cases h : 65 ≤ c.toNat ∧ c.toNat ≤ 90
  · rw [if_pos h] at h1; omega
  · rw [if_neg h] at h1; omega

theorem toLower_toLower (c : Char) : c.toLower.toLower = c.toLower := by
  apply char_eq_of_toNat_eq
  rw [toNat_toLower, if_neg (toLower_not_upper c)]

theorem toLower_eq_low {c d : Char} (hd : d.toNat < 65) : c.toLower = d ↔ c = d := by
  constructor
  · intro h
    have h1 := toNat_toLower c
    rw [h] at h1
    by_cases hc : 65 ≤ c.toNat ∧ c.toNat ≤ 90
    · rw [if_pos hc] at h1; omega
    · rw [if_neg hc] at h1; exact char_eq_of_toNat_eq h1.symm
  · rintro rfl
    apply char_eq_of_toNat_eq
    rw [toNat_toLower, if_neg (by omega)]

theorem lower_lower (s : Str) : lower (lower s) = lower s := by
  unfold lower
  rw [List.map_map]
  exact List.map_congr_left fun c _ => toLower_toLower c

theorem lower_nil_iff {s : Str} : lower s = [] ↔ s = [] := by
  unfold lower
  exact List.map_eq_nil_iff

/-- A claim-sized spot check that the embedding of `lower` matches Python
on a mixed-case sample. -/
theorem lower_sample : lower (str (r"AzB:/9")) = str (r"azb:/9") := by decide

/-! ### C1: RFC 3986 section 5.4 join vectors -/

/-- C1: joining base `parse('http://a/b/c/d;p?q')` with each of the nine
relative references reproduces the RFC 3986 section 5.4 resolutions; in
particular the excess `..` segments of `../../../g` are dropped at the root
with no error. -/
theorem join_rfc3986_vectors :
    as_string (add (parse (str (r"http://a/b/c/d;p?q"))) (parse (str (r"g"))))
        = str (r"http://a/b/c/g") ∧
    as_string (add (parse (str (r"http://a/b/c/d;p?q"))) (parse (str (r"./g"))))
        = str (r"http://a/b/c/g") ∧
    as_string (add (parse (str (r"http://a/b/c/d;p?q"))) (parse (str (r"g/"))))
        = str (r"http://a/b/c/g/") ∧
    as_string (add (parse (str (r"http://a/b/c/d;p?q"))) (parse (str (r"/g"))))
        = str (r"http://a/g") ∧
    as_string (add (parse (str (r"http://a/b/c/d;p?q"))) (parse (str (r"//g"))))
        = str (r"http://g") ∧
    as_string (add (parse (str (r"http://a/b/c/d;p?q"))) (parse (str (r"?y"))))
        = str (r"http://a/b/c/d;p?y") ∧
    as_string (add (parse (str (r"http://a/b/c/d;p?q"))) (parse (str (r"#s"))))
        = str (r"http://a/b/c/d;p?q#s") ∧
    as_string (add (parse (str (r"http://a/b/c/d;p?q"))) (parse (str (r"../../../g"))))
        = str (r"http://a/g") ∧
    as_string (add (parse (str (r"http://a/b/c/d;p?q"))) (parse (str (r""))))
        = str (r"http://a/b/c/d;p?q") :=
  ⟨rfl, rfl, rfl, rfl, rfl, rfl, rfl, rfl, rfl⟩

/-! ### C9: boolean conversion -/

/-- C9: the boolean conversion of a URL is true exactly when one of the
seven stored components is non-empty, and the empty string parses to the
all-empty, falsy URL. -/
theorem nonzero_iff_some_component :
    (∀ u : URL, nonzero u = true ↔
      (u.scheme ≠ [] ∨ u.userinfo ≠ [] ∨ u.host ≠ [] ∨ u.port ≠ [] ∨
       u.path ≠ [] ∨ u.query ≠ [] ∨ u.fragment ≠ [])) ∧
    parse [] = ⟨[], [], [], [], [], [], []⟩ ∧
    nonzero (parse []) = false := by
  refine ⟨fun u => ?_, rfl, rfl⟩
  simp [nonzero]

/-! ### C10: the parse path stores the split verbatim -/

/-- C10: a parsed URL stores userinfo, port, path, query and fragment
byte-for-byte as the Splitter produced them; only scheme and host are
modified, by lowercasing. -/
theorem parse_stores_split_verbatim (s : Str) :
    (parse s).userinfo = (rawSplit s).userinfo ∧
    (parse s).port = (rawSplit s).port ∧
    (parse s).path = (rawSplit s).path ∧
    (parse s).query = (rawSplit s).query ∧
    (parse s).fragment = (rawSplit s).fragment ∧
    (parse s).scheme = lower (rawSplit s).scheme ∧
    (parse s).host = lower (rawSplit s).host :=
  ⟨rfl, rfl, rfl, rfl, rfl, rfl, rfl⟩

/-! ### C3: the secondary host/port split -/

/-- C3 counterexample: for the authority candidate `a:` the text after the
last colon is empty, yet the split still happens — the stored host is `a`,
not the whole candidate `a:`, and the port is empty. -/
theorem portsplit_trailing_colon_counterexample :
    (parse (str (r"//a:"))).host = str (r"a") ∧
    (parse (str (r"//a:"))).host ≠ str (r"a:") ∧
    (parse (str (r"//a:"))).port = [] := by decide

theorem portResplit_nil_eq_spec (hp : Str) : portResplit hp [] = resplitSpec hp := by
  unfold portResplit resplitSpec
  cases h : lastColonSplit hp with
  | none => rfl
  | some p =>
    show (if (p.2.isEmpty || p.2.all Char.isDigit) = true then (p.1, p.2) else (hp, [])) =
         (if p.2 = [] ∨ p.2.all Char.isDigit = true then (p.1, p.2) else (hp, []))
    by_cases hc : p.2 = [] ∨ p.2.all Char.isDigit = true
    · rw [if_pos (by simpa [List.isEmpty_iff] using hc), if_pos hc]
    · rw [if_neg (by simpa [List.isEmpty_iff] using hc), if_neg hc]

/-- C3 amended: the candidate is re-split at its last colon exactly when
the text after it is empty or all digits; when that text is empty the host
is the candidate up to the colon (the trailing colon is dropped) and the
port is empty; a non-empty non-digit suffix keeps the whole candidate as
host.  The re-split result is stored with the host lowercased. -/
theorem parse_host_port_resplit :
    (∀ s : Str,
      (parse s).host = lower (resplitSpec (hostportCandidate s)).1 ∧
      (parse s).port = (resplitSpec (hostportCandidate s)).2) ∧
    (parse (str (r"//a:b"))).host = str (r"a:b") ∧
    (parse (str (r"//user:pass@[::1]:80"))).port = str (r"80") := by
  refine ⟨fun s => ?_, by decide, by decide⟩
  have h : portResplit (hostportCandidate s) [] = resplitSpec (hostportCandidate s) :=
    portResplit_nil_eq_spec _
  constructor
  · show lower (portResplit (hostportCandidate s) []).1 = _
    rw [h]
  · show (portResplit (hostportCandidate s) []).2 = _
    rw [h]

/-! ### C4: the dot-slash escape -/

/-- C4 counterexample: with empty scheme and authority and path `:x`, the
first path segment contains a colon (as its very first character), yet the
serializer emits `:x` with no `./` prefix. -/
theorem dotslash_counterexample :
    as_string (build [] [] [] [] (str (r":x")) [] []) = str (r":x") ∧
    str (r":x") ≠ str (r"./:x") ∧
    (build [] [] [] [] (str (r":x")) [] []).scheme = [] ∧
    ((build [] [] [] [] (str (r":x")) [] []).path.takeWhile
      (fun c => c != '/')).contains ':' = true := by decide

/-- C4 amended: for a URL with empty authority whose path does not start
with `//`, the serialized form is the `./` escape exactly under
`dotSlashCond` — scheme empty and the path's first colon at a positive
offset with no slash before it — followed by the scheme prefix (if any)
and the full path. -/
theorem as_string_dotslash (u : URL) (h1 : authority u = [])
    (h2 : u.path.take 2 ≠ ['/', '/']) :
    as_string u = (if dotSlashCond u then str (r"./") else []) ++
      (if u.scheme ≠ [] then u.scheme ++ [':'] else []) ++ full_path u := by
  simp only [as_string, dotSlashCond, h1, ne_eq, not_true_eq_false, false_or, if_neg h2]
  split_ifs <;> first
    | rfl
    | tauto
    | (exfalso
       rename_i hno hyes
       refine hno ⟨hyes.1, fun hp => ?_⟩
       rcases hyes with ⟨-, -, hlt, -⟩
       rw [hp] at hlt
       simp at hlt)

theorem as_string_dotslash_witness :
    as_string (build [] [] [] [] (str (r"a:b")) [] []) =
      (if dotSlashCond (build [] [] [] [] (str (r"a:b")) [] []) then str (r"./") else []) ++
      (if (build [] [] [] [] (str (r"a:b")) [] []).scheme ≠ []
       then (build [] [] [] [] (str (r"a:b")) [] []).scheme ++ [':'] else []) ++
      full_path (build [] [] [] [] (str (r"a:b")) [] []) :=
  as_string_dotslash _ (by decide) (by decide)

/-! ### C6: lowercase scheme and host invariants -/

theorem noUpper_lower (s : Str) : noUpper (lower s) := by
  intro c hc
  unfold lower at hc
  obtain ⟨d, _, rfl⟩ := List.mem_map.mp hc
  exact toLower_not_upper d

theorem urlNew_noUpper (o : Option Str) (sc ui h po pa q f : Str) :
    noUpper (urlNew o sc ui h po pa q f).scheme ∧ noUpper (urlNew o sc ui h po pa q f).host := by
  cases o <;> exact ⟨noUpper_lower _, noUpper_lower _⟩

/-- C6: every constructing operation (parse, build, join, replace,
setdefault) stores scheme and host without ASCII uppercase letters. -/
theorem constructed_scheme_host_lowercase :
    (∀ s, noUpper (parse s).scheme ∧ noUpper (parse s).host) ∧
    (∀ sc ui h po pa q f, noUpper (build sc ui h po pa q f).scheme ∧
      noUpper (build sc ui h po pa q f).host) ∧
    (∀ u v, noUpper (add u v).scheme ∧ noUpper (add u v).host) ∧
    (∀ self sc ui h po pa q f auth fp,
      lowerHostScheme (replace self sc ui h po pa q f auth fp)) ∧
    (∀ self sc ui h po pa q f, noUpper (setdefault self sc ui h po pa q f).scheme ∧
      noUpper (setdefault self sc ui h po pa q f).host) := by
  refine ⟨fun s => urlNew_noUpper _ _ _ _ _ _ _ _,
          fun sc ui h po pa q f => urlNew_noUpper _ _ _ _ _ _ _ _,
          fun u v => ?_, fun self sc ui h po pa q f auth fp => ?_,
          fun self sc ui h po pa q f => urlNew_noUpper _ _ _ _ _ _ _ _⟩
  · unfold add
    split_ifs <;> exact urlNew_noUpper _ _ _ _ _ _ _ _
  · unfold replace
    split_ifs <;> first
      | trivial
      | exact ⟨noUpper_lower _, noUpper_lower _⟩

/-! ### C7: leading-slash insertion -/

/-- C7: building from explicit components inserts a leading slash into a
non-empty relative path when an authority component is present; on the
parse path no such insertion happens — the stored path is the Splitter's
path verbatim. -/
theorem build_inserts_leading_slash :
    (∀ sc ui h po pa q f, (ui ≠ [] ∨ h ≠ [] ∨ po ≠ []) → pa ≠ [] →
      pa.head? ≠ some '/' → (build sc ui h po pa q f).path = '/' :: pa) ∧
    (∀ s, (parse s).path = (rawSplit s).path) := by
  refine ⟨fun sc ui h po pa q f h1 h2 h3 => ?_, fun s => rfl⟩
  show (if (ui ≠ [] ∨ h ≠ [] ∨ po ≠ []) ∧ pa ≠ [] ∧ pa.head? ≠ some '/'
        then '/' :: pa else pa) = '/' :: pa
  rw [if_pos ⟨h1, h2, h3⟩]

theorem build_inserts_leading_slash_witness :
    (build [] [] (str (r"h")) [] (str (r"p")) [] []).path = '/' :: str (r"p") :=
  build_inserts_leading_slash.1 [] [] (str (r"h")) [] (str (r"p")) [] []
    (by decide) (by decide) (by decide)

/-! ### C5: validation order, kinds and guards -/

theorem validScheme_eq_spec (s : Str) : validSchemeStr s = schemeGrammarSpec s := rfl

theorem ui_cond_iff (s : Str) :
    (s ≠ [] ∧ validUserinfoStr s = false) ↔ (s ≠ [] ∧ userinfoGrammarSpec s = false) := by
  unfold validUserinfoStr userinfoGrammarSpec
  have hb : ∀ e a : Bool, ((!e && a) = false ↔ (e = true ∨ a = false)) := by decide
  rw [hb, List.isEmpty_iff]
  tauto

theorem host_cond_iff (h : Str) :
    (h ≠ [] ∧ hostBad h = true) ↔ (h ≠ [] ∧ hostGrammarSpec h = false) := by
  unfold hostBad hostGrammarSpec validRegNameStr regNameGrammarSpec
  by_cases hb : h.head? = some '[' ∧ h.getLast? = some ']'
  · rw [if_pos hb, if_pos hb]
    simp
  · rw [if_neg hb, if_neg hb]
    have he : ∀ e a : Bool, ((!(!e && a)) = true ↔ (e = true ∨ a = false)) := by decide
    rw [he, List.isEmpty_iff]
    tauto

theorem path_cond_iff (s : Str) :
    (s ≠ [] ∧ validPathStr s = false) ↔
      (s ≠ [] ∧ (s.all fun c => !isPQ c) = false) := by
  unfold validPathStr
  have hb : ∀ e a : Bool, ((!e && a) = false ↔ (e = true ∨ a = false)) := by decide
  rw [hb, List.isEmpty_iff]
  tauto

theorem query_cond_iff (s : Str) :
    (s ≠ [] ∧ validQueryStr s = false) ↔
      (s ≠ [] ∧ (s.all fun c => c != '#') = false) := by
  unfold validQueryStr
  have hb : ∀ e a : Bool, ((!e && a) = false ↔ (e = true ∨ a = false)) := by decide
  rw [hb, List.isEmpty_iff]
  tauto

/-- C5 counterexample: Python's dollar anchor also matches before a single
trailing newline, so the source's `validate` accepts the scheme `ab\n` —
reachable via `parse` since the split class `[^:/?#]` admits the newline —
although that scheme does not match `[a-z][a-z0-9+.-]*` taken literally;
the bracketed host `[a\n]` likewise passes the IP-literal check. -/
theorem validate_newline_counterexample :
    (parse ['a', 'b', '\n', ':', 'x']).scheme = ['a', 'b', '\n'] ∧
    schemeBody ['a', 'b', '\n'] = false ∧
    validate (parse ['a', 'b', '\n', ':', 'x']) = .ok (parse ['a', 'b', '\n', ':', 'x']) ∧
    ipLiteralBody ['a', '\n'] = false ∧
    validate (urlNew none [] [] ['[', 'a', '\n', ']'] [] [] [] []) =
      .ok (urlNew none [] [] ['[', 'a', '\n', ']'] [] [] [] []) := by decide

/-- C5 amended: `validate` reports exactly the first violation in the order
scheme, userinfo, host, path, query — each with its own error kind, empty
components passing, success returning the URL unchanged, the fragment
never influencing the outcome — with the grammars read as the code's
anchored patterns under Python dollar semantics: the scheme grammar
`[a-z][a-z0-9+.-]*` and the bracketed-host IP-literal grammar additionally
accept a single trailing newline (the userinfo, unbracketed-host, path and
query grammars are negated character classes that admit the newline, so
for them the dollar subtlety changes nothing). -/
theorem validate_first_violation (u : URL) :
    validate u = (match firstViolationSpec u with
                  | some e => Except.error e
                  | none => Except.ok u) ∧
    (∀ g, errOf (validate { u with fragment := g }) = errOf (validate u)) := by
  constructor
  · unfold validate firstViolationSpec
    rw [validScheme_eq_spec]
    simp only [ui_cond_iff, host_cond_iff, path_cond_iff, query_cond_iff]
    split_ifs <;> rfl
  · intro g
    unfold validate errOf
    dsimp only
    split_ifs <;> rfl

/-! ### C8: replace and its shortcuts -/

/-- C8 counterexample: the `authority` shortcut combined with an explicitly
supplied — but empty, hence falsy — `host` argument does not raise; the
shortcut simply wins. -/
theorem replace_truthiness_counterexample :
    replace (parse (str (r"http://x/"))) none none (some []) none none none none
      (some (str (r"h"))) none = .ok (parse (str (r"http://h/"))) := by decide

theorem urlNew_lower_host (sc ui X po pa q f : Str) :
    urlNew none sc ui (lower X) po pa q f = urlNew none sc ui X po pa q f := by
  simp only [urlNew, ne_eq, lower_nil_iff, lower_lower]

/-- C8 amended: `replace` raises a type error exactly when a shortcut is
combined with a truthy (non-`None`, non-empty) constituent argument;
otherwise each shortcut is split by the Splitter and assigned
field-by-field, unsupplied arguments are copied from the original, and the
result is rebuilt by the constructor. -/
theorem replace_eq_spec (self : URL) (sc ui h po pa q f auth fp : Option Str) :
    replace self sc ui h po pa q f auth fp = replaceSpec self sc ui h po pa q f auth fp := by
  unfold replace replaceSpec
  cases auth with
  | none =>
    cases fp with
    | none => split_ifs <;> rfl
    | some x => split_ifs <;> rfl
  | some a =>
    cases fp with
    | none =>
      split_ifs <;> try rfl
      exact congrArg Except.ok (urlNew_lower_host _ _ _ _ _ _ _)
    | some x =>
      split_ifs <;> try rfl
      exact congrArg Except.ok (urlNew_lower_host _ _ _ _ _ _ _)

/-! ### C2 round-trip: reconstruction lemmas for the split pipeline -/

theorem mem_of_mem_takeWhile {p : Char → Bool} {c : Char} {l : Str}
    (h : c ∈ l.takeWhile p) : c ∈ l :=
  (List.takeWhile_sublist p).subset h

theorem takeWhile_append_stop {p : Char → Bool} {a T : Str}
    (ha : ∀ c ∈ a, p c = true) (hT : ∀ c, T.head? = some c → p c = false) :
    (a ++ T).takeWhile p = a := by
  rw [List.takeWhile_append_of_pos ha]
  cases T with
  | nil => simp
  | cons c t =>
    rw [List.takeWhile_cons_of_neg]
    · simp
    · simp [hT c rfl]

theorem dropWhile_append_stop {p : Char → Bool} {a T : Str}
    (ha : ∀ c ∈ a, p c = true) (hT : ∀ c, T.head? = some c → p c = false) :
    (a ++ T).dropWhile p = T := by
  rw [List.dropWhile_append_of_pos ha]
  cases T with
  | nil => simp
  | cons c t =>
    rw [List.dropWhile_cons_of_neg]
    simp [hT c rfl]

theorem splitScheme_scheme {sc r : Str} (h1 : sc ≠ [])
    (h2 : ∀ c ∈ sc, isStop c = false) :
    splitScheme (sc ++ ':' :: r) = (sc, r) := by
  have hrun : (sc ++ ':' :: r).takeWhile (fun c => !isStop c) = sc :=
    takeWhile_append_stop (fun c hc => by simp [h2 c hc])
      (fun c hc => by cases hc; rfl)
  have hdrop : (sc ++ ':' :: r).dropWhile (fun c => !isStop c) = ':' :: r :=
    dropWhile_append_stop (fun c hc => by simp [h2 c hc])
      (fun c hc => by cases hc; rfl)
  simp only [splitScheme, hrun, hdrop]
  rw [if_pos ⟨rfl, h1⟩]
  rfl

theorem splitScheme_noscheme {s : Str}
    (h : ∀ c, (s.dropWhile (fun c => !isStop c)).head? = some c → c ≠ ':') :
    splitScheme s = ([], s) := by
  simp only [splitScheme]
  rw [if_neg]
  intro hc
  exact h ':' hc.1 rfl

theorem splitAuthority_noslash {s : Str} (h : s.take 2 ≠ ['/', '/']) :
    splitAuthority s = ([], [], s) := by
  simp only [splitAuthority, if_neg h]

theorem splitAuthority_userinfo {ui hp P : Str}
    (hui : ∀ c ∈ ui, isRegStop c = false ∧ c ≠ '@')
    (hhp : ∀ c ∈ hp, isRegStop c = false)
    (hP : ∀ c, P.head? = some c → isRegStop c = true) :
    splitAuthority ('/' :: '/' :: ((ui ++ '@' :: hp) ++ P)) = (ui, hp, P) := by
  have hall : ∀ c ∈ ui ++ '@' :: hp, (!isRegStop c) = true := by
    intro c hc
    rcases List.mem_append.mp hc with h1 | h1
    · simp [(hui c h1).1]
    · rcases List.mem_cons.mp h1 with h2 | h2
      · subst h2; rfl
      · simp [hhp c h2]
  have hreg : ((ui ++ '@' :: hp) ++ P).takeWhile (fun c => !isRegStop c) = ui ++ '@' :: hp :=
    takeWhile_append_stop hall (fun c hc => by simp [hP c hc])
  have hrest : ((ui ++ '@' :: hp) ++ P).dropWhile (fun c => !isRegStop c) = P :=
    dropWhile_append_stop hall (fun c hc => by simp [hP c hc])
  have hwitake : (ui ++ '@' :: hp).takeWhile (fun c => c != '@') = ui :=
    takeWhile_append_stop (fun c hc => by simp [(hui c hc).2])
      (fun c hc => by cases hc; rfl)
  have hdrop2 : (ui ++ '@' :: hp).drop (ui.length + 1) = hp := by
    have he : ui ++ '@' :: hp = (ui ++ ['@']) ++ hp := by simp
    rw [he, show ui.length + 1 = (ui ++ ['@']).length by simp]
    exact List.drop_left _ _
  simp only [splitAuthority, List.take_succ_cons, List.take_zero, List.drop_succ_cons,
    List.drop_zero, hreg, hrest, hwitake, hdrop2]
  rw [if_pos trivial, if_pos (by simp)]

theorem splitAuthority_nouserinfo {hp P : Str}
    (hhp : ∀ c ∈ hp, isRegStop c = false ∧ c ≠ '@')
    (hP : ∀ c, P.head? = some c → isRegStop c = true) :
    splitAuthority ('/' :: '/' :: (hp ++ P)) = ([], hp, P) := by
  have hall : ∀ c ∈ hp, (!isRegStop c) = true := fun c hc => by simp [(hhp c hc).1]
  have hreg : (hp ++ P).takeWhile (fun c => !isRegStop c) = hp :=
    takeWhile_append_stop hall (fun c hc => by simp [hP c hc])
  have hrest : (hp ++ P).dropWhile (fun c => !isRegStop c) = P :=
    dropWhile_append_stop hall (fun c hc => by simp [hP c hc])
  have htake : hp.takeWhile (fun c => c != '@') = hp := by
    rw [List.takeWhile_eq_self_iff]
    intro c hc
    simp [(hhp c hc).2]
  simp only [splitAuthority, List.take_succ_cons, List.take_zero, List.drop_succ_cons,
    List.drop_zero, hreg, hrest, htake]
  rw [if_pos trivial, if_neg (by simp)]

theorem splitPath_append {pa T : Str} (hpa : ∀ c ∈ pa, isPQ c = false)
    (hT : ∀ c, T.head? = some c → isPQ c = true) :
    splitPath (pa ++ T) = (pa, T) := by
  unfold splitPath
  rw [takeWhile_append_stop (fun c hc => by simp [hpa c hc]) (fun c hc => by simp [hT c hc]),
      dropWhile_append_stop (fun c hc => by simp [hpa c hc]) (fun c hc => by simp [hT c hc])]

theorem splitQuery_query {q F : Str} (hq : ∀ c ∈ q, c ≠ '#')
    (hF : ∀ c, F.head? = some c → c = '#') :
    splitQuery ('?' :: (q ++ F)) = (q, F) := by
  simp only [splitQuery, List.head?_cons, List.tail_cons]
  rw [if_pos trivial]
  show (((q ++ F).takeWhile fun c => c != '#'), ((q ++ F).dropWhile fun c => c != '#')) = (q, F)
  rw [takeWhile_append_stop (fun c hc => by simp [hq c hc])
        (fun c hc => by rw [hF c hc]; rfl),
      dropWhile_append_stop (fun c hc => by simp [hq c hc])
        (fun c hc => by rw [hF c hc]; rfl)]

theorem splitQuery_nil : splitQuery [] = ([], []) := rfl

theorem splitQuery_hash {f : Str} : splitQuery ('#' :: f) = ([], '#' :: f) := by
  simp only [splitQuery, List.head?_cons]
  rw [if_neg (by decide)]
  rw [List.takeWhile_cons_of_neg (by decide), List.dropWhile_cons_of_neg (by decide)]

theorem splitFragment_hash {f : Str} : splitFragment ('#' :: f) = f := by
  simp only [splitFragment, List.head?_cons]
  rw [if_pos trivial]
  rfl

theorem splitFragment_nil : splitFragment [] = [] := rfl

theorem lastColonSplit_append {a b : Str} (hb : ∀ c ∈ b, c ≠ ':') :
    lastColonSplit (a ++ ':' :: b) = some (a, b) := by
  have hrev : (a ++ ':' :: b).reverse = b.reverse ++ ':' :: a.reverse := by
    rw [List.reverse_append, List.reverse_cons, List.append_assoc, List.singleton_append]
  have hrb : ∀ c ∈ b.reverse, (c != ':') = true := by
    intro c hc
    simp [hb c (List.mem_reverse.mp hc)]
  simp only [lastColonSplit, hrev]
  rw [dropWhile_append_stop hrb (fun c hc => by cases hc; rfl)]
  rw [if_neg (by simp)]
  rw [takeWhile_append_stop hrb (fun c hc => by cases hc; rfl)]
  simp

theorem lastColonSplit_nocolon {h : Str} (hh : ∀ c ∈ h, c ≠ ':') :
    lastColonSplit h = none := by
  simp only [lastColonSplit]
  rw [if_pos]
  rw [List.dropWhile_eq_nil_iff]
  intro c hc
  simp [hh c (List.mem_reverse.mp hc)]

/-! ### C2 round-trip: parse-shape invariants -/

theorem toLower_ne_low {c d : Char} (hd : d.toNat < 65) (h : c ≠ d) : c.toLower ≠ d :=
  fun hx => h ((toLower_eq_low hd).mp hx)

theorem isStop_toLower {c : Char} (h : isStop c = false) : isStop c.toLower = false := by
  simp only [isStop, Bool.or_eq_false_iff, beq_eq_false_iff_ne, ne_eq] at h ⊢
  obtain ⟨⟨⟨h1, h2⟩, h3⟩, h4⟩ := h
  exact ⟨⟨⟨toLower_ne_low (by decide) h1, toLower_ne_low (by decide) h2⟩,
         toLower_ne_low (by decide) h3⟩, toLower_ne_low (by decide) h4⟩

theorem isRegStop_toLower {c : Char} (h : isRegStop c = false) :
    isRegStop c.toLower = false := by
  simp only [isRegStop, Bool.or_eq_false_iff, beq_eq_false_iff_ne, ne_eq] at h ⊢
  obtain ⟨⟨h1, h2⟩, h3⟩ := h
  exact ⟨⟨toLower_ne_low (by decide) h1, toLower_ne_low (by decide) h2⟩,
         toLower_ne_low (by decide) h3⟩

theorem splitScheme_fst_cases (s : Str) :
    (splitScheme s).1 = [] ∨ (splitScheme s).1 = s.takeWhile (fun c => !isStop c) := by
  simp only [splitScheme]
  split_ifs <;> simp

theorem splitAuthority_fst_subset (s : Str) :
    ∀ c ∈ (splitAuthority s).1, isRegStop c = false ∧ c ≠ '@' := by
  intro c hc
  simp only [splitAuthority] at hc
  split_ifs at hc
  · constructor
    · have hc2 := mem_of_mem_takeWhile hc
      simpa using List.mem_takeWhile_imp hc2
    · simpa using List.mem_takeWhile_imp hc
  · exact absurd hc (by simp)
  · exact absurd hc (by simp)

theorem splitAuthority_hp_subset (s : Str) :
    ∀ c ∈ (splitAuthority s).2.1, isRegStop c = false := by
  intro c hc
  simp only [splitAuthority] at hc
  split_ifs at hc
  · have hc2 : c ∈ (s.drop 2).takeWhile (fun c => !isRegStop c) :=
      (List.drop_sublist _ _).subset hc
    simpa using List.mem_takeWhile_imp hc2
  · simpa using List.mem_takeWhile_imp hc
  · exact absurd hc (by simp)

theorem lastColonSplit_subset {hp : Str} {p : Str × Str} (h : lastColonSplit hp = some p) :
    (∀ c ∈ p.1, c ∈ hp) ∧ (∀ c ∈ p.2, c ∈ hp) := by
  simp only [lastColonSplit] at h
  by_cases he : hp.reverse.dropWhile (fun c => c != ':') = []
  · rw [if_pos he] at h
    cases h
  · rw [if_neg he] at h
    cases h
    constructor
    · intro c hc
      have h1 := List.mem_reverse.mp hc
      have h2 := (List.tail_sublist _).subset h1
      exact List.mem_reverse.mp ((List.dropWhile_sublist _).subset h2)
    · intro c hc
      have h1 := List.mem_reverse.mp hc
      exact List.mem_reverse.mp ((List.takeWhile_sublist _).subset h1)

theorem portResplit_eq_none {hp po : Str} (h : lastColonSplit hp = none) :
    portResplit hp po = (hp, po) := by
  unfold portResplit
  rw [h]

theorem portResplit_eq_some {hp po : Str} {p : Str × Str} (h : lastColonSplit hp = some p) :
    portResplit hp po =
      if (p.2.isEmpty || p.2.all Char.isDigit) = true then (p.1, p.2) else (hp, po) := by
  unfold portResplit
  rw [h]

theorem portResplit_host_subset (hp : Str) : ∀ c ∈ (portResplit hp []).1, c ∈ hp := by
  intro c hc
  cases hl : lastColonSplit hp with
  | none => rw [portResplit_eq_none hl] at hc; exact hc
  | some p =>
    rw [portResplit_eq_some hl] at hc
    split_ifs at hc
    · exact (lastColonSplit_subset hl).1 c hc
    · exact hc

theorem portResplit_port_cases (hp : Str) :
    (portResplit hp []).2 = [] ∨ (portResplit hp []).2.all Char.isDigit = true := by
  cases hl : lastColonSplit hp with
  | none => rw [portResplit_eq_none hl]; left; rfl
  | some p =>
    rw [portResplit_eq_some hl]
    split_ifs with h
    · rcases (Bool.or_eq_true _ _).mp h with h1 | h1
      · left
        simpa [List.isEmpty_iff] using h1
      · right
        exact h1
    · left; rfl

theorem portResplit_nil : portResplit [] [] = ([], []) := rfl

theorem splitAuthority_authPa (s : Str)
    (hne : ¬((splitAuthority s).1 = [] ∧ (splitAuthority s).2.1 = [])) :
    (splitPath (splitAuthority s).2.2).1 = [] ∨
      ((splitPath (splitAuthority s).2.2).1).head? = some '/' := by
  by_cases hsl : s.take 2 = ['/', '/']
  · have hrest : (splitAuthority s).2.2 = (s.drop 2).dropWhile (fun c => !isRegStop c) := by
      simp only [splitAuthority]
      rw [if_pos hsl]
      split_ifs <;> rfl
    have hh := List.head?_dropWhile_not (fun c => !isRegStop c) (s.drop 2)
    rw [hrest]
    cases hd : ((s.drop 2).dropWhile fun c => !isRegStop c) with
    | nil => left; rfl
    | cons c t =>
      rw [hd] at hh
      simp only [List.head?_cons] at hh
      have hcs : isRegStop c = true := by simpa using hh
      have hor : c = '/' ∨ isPQ c = true := by
        simp only [isRegStop, Bool.or_eq_true, beq_iff_eq] at hcs
        simp only [isPQ, Bool.or_eq_true, beq_iff_eq]
        tauto
      rcases hor with h1 | h1
      · subst h1
        right
        unfold splitPath
        rw [List.takeWhile_cons_of_pos (by decide)]
        rfl
      · left
        unfold splitPath
        rw [List.takeWhile_cons_of_neg (by simp [h1])]
  · exfalso
    apply hne
    simp only [splitAuthority]
    rw [if_neg hsl]
    exact ⟨rfl, rfl⟩

theorem parse_inv (s : Str) : ParseInv (parse s) := by
  refine ⟨?_, ?_, ?_, ?_, ?_, ?_, ?_, ?_, ?_⟩
  · exact lower_lower _
  · intro c hc
    have hsc : (parse s).scheme = lower (splitScheme s).1 := rfl
    rw [hsc] at hc
    obtain ⟨d, hd, rfl⟩ := List.mem_map.mp hc
    rcases splitScheme_fst_cases s with h1 | h1
    · rw [h1] at hd
      cases hd
    · apply isStop_toLower
      rw [h1] at hd
      simpa using List.mem_takeWhile_imp hd
  · exact splitAuthority_fst_subset _
  · exact lower_lower _
  · intro c hc
    have hh : (parse s).host = lower (portResplit (splitAuthority (splitScheme s).2).2.1 []).1 :=
      rfl
    rw [hh] at hc
    obtain ⟨d, hd, rfl⟩ := List.mem_map.mp hc
    apply isRegStop_toLower
    exact splitAuthority_hp_subset _ d (portResplit_host_subset _ d hd)
  · intro c hc
    have hp : (parse s).port = (portResplit (splitAuthority (splitScheme s).2).2.1 []).2 := rfl
    rw [hp] at hc
    rcases portResplit_port_cases (splitAuthority (splitScheme s).2).2.1 with h1 | h1
    · rw [h1] at hc
      cases hc
    · exact List.all_eq_true.mp h1 c hc
  · intro c hc
    have hpa : (parse s).path = (splitPath (splitAuthority (splitScheme s).2).2.2).1 := rfl
    rw [hpa] at hc
    simpa using List.mem_takeWhile_imp hc
  · intro c hc
    have hq : (parse s).query = (splitQuery (splitPath (splitAuthority (splitScheme s).2).2.2).2).1 :=
      rfl
    rw [hq] at hc
    simpa using List.mem_takeWhile_imp hc
  · intro hne
    have hpa : (parse s).path = (splitPath (splitAuthority (splitScheme s).2).2.2).1 := rfl
    rw [hpa]
    apply splitAuthority_authPa
    rintro ⟨he1, he2⟩
    rcases hne with h1 | h1 | h1
    · exact h1 (by
        rw [show (parse s).userinfo = (splitAuthority (splitScheme s).2).1 from rfl, he1])
    · apply h1
      rw [show (parse s).host = lower (portResplit (splitAuthority (splitScheme s).2).2.1 []).1
          from rfl, he2, portResplit_nil]
      rfl
    · apply h1
      rw [show (parse s).port = (portResplit (splitAuthority (splitScheme s).2).2.1 []).2
          from rfl, he2, portResplit_nil]

/-! ### C2 round-trip: serializer shape lemmas -/

theorem full_path_eq (u : URL) : full_path u = u.path ++ fpTail u := by
  unfold full_path fpTail
  by_cases hq : u.query = [] <;> by_cases hf : u.fragment = [] <;>
    simp [hq, hf, List.append_assoc]

theorem lastColonSplit_ne_nil {h : Str} {p : Str × Str} (hl : lastColonSplit h = some p) :
    h ≠ [] := by
  intro hh
  subst hh
  simp [lastColonSplit] at hl

theorem hostportSer_empty_iff (u : URL) : hostportSer u = [] ↔ u.host = [] ∧ u.port = [] := by
  unfold hostportSer
  by_cases hpo : u.port = []
  · rw [if_neg (by simp [hpo])]
    cases hl : lastColonSplit u.host with
    | none => simp [hpo]
    | some p =>
      have hne := lastColonSplit_ne_nil hl
      show (if ¬p.2.isEmpty = true ∧ p.2.all Char.isDigit = true
            then u.host ++ [':'] else u.host) = [] ↔ u.host = [] ∧ u.port = []
      split_ifs with h
      · simp [hpo, hne]
      · simp [hpo, hne]
  · rw [if_pos (by simp [hpo])]
    simp [hpo]

theorem authority_empty_iff (u : URL) :
    authority u = [] ↔ u.userinfo = [] ∧ u.host = [] ∧ u.port = [] := by
  unfold authority
  by_cases hui : u.userinfo = []
  · rw [if_neg (by simp [hui])]
    rw [hostportSer_empty_iff]
    simp [hui]
  · rw [if_pos hui]
    simp [hui]

theorem as_string_authority (u : URL) (hA : authority u ≠ []) :
    as_string u = (if u.scheme ≠ [] then u.scheme ++ [':'] else []) ++
      ('/' :: '/' :: (authority u ++ full_path u)) := by
  simp only [as_string]
  rw [if_pos (Or.inl hA)]
  by_cases hsc : u.scheme = []
  · rw [if_neg (by simp [hsc]), if_neg (by simp [hsc])]
    simp
  · rw [if_pos hsc, if_pos hsc]
    simp

theorem firstSeg_colon {pa : Str}
    (h1 : (pa.takeWhile (fun c => c != ':')).length < pa.length)
    (h4 : (pa.takeWhile (fun c => c != ':')).contains '/' = false) :
    ':' ∈ pa.takeWhile (fun c => c != '/') := by
  have hsplit := List.takeWhile_append_dropWhile (fun c => c != ':') pa
  have h4' : '/' ∉ pa.takeWhile (fun c => c != ':') := by
    intro hmem
    have hh : (pa.takeWhile (fun c => c != ':')).contains '/' = true :=
      List.elem_iff.mpr hmem
    rw [h4] at hh
    cases hh
  cases hd : pa.dropWhile (fun c => c != ':') with
  | nil =>
    exfalso
    rw [hd, List.append_nil] at hsplit
    rw [hsplit] at h1
    exact Nat.lt_irrefl _ h1
  | cons c t =>
    have hh := List.head?_dropWhile_not (fun c => c != ':') pa
    rw [hd] at hh
    simp only [List.head?_cons] at hh
    have hc : c = ':' := by simpa using hh
    subst hc
    have htw : ∀ x ∈ pa.takeWhile (fun c => c != ':'), (x != '/') = true := by
      intro x hx
      have hxne : x ≠ '/' := fun he => h4' (he ▸ hx)
      simpa using hxne
    rw [← hsplit, hd]
    rw [List.takeWhile_append_of_pos htw, List.takeWhile_cons_of_pos (by decide)]
    simp

theorem as_string_no_authority (u : URL) (hA : authority u = [])
    (h2 : u.path.take 2 ≠ ['/', '/'])
    (h3 : u.scheme = [] → ':' ∉ u.path.takeWhile (fun c => c != '/')) :
    as_string u = (if u.scheme ≠ [] then u.scheme ++ [':'] else []) ++ full_path u := by
  simp only [as_string, hA, ne_eq, not_true_eq_false, false_or, if_neg h2]
  by_cases hsc : u.scheme = []
  · rw [if_neg (not_not_intro hsc), if_neg (not_not_intro hsc)]
    by_cases hpa : u.path = []
    · rw [if_neg (fun hc => hc.2 hpa)]
    · rw [if_pos ⟨hsc, hpa⟩]
      rw [if_neg]
      rintro ⟨hc1, hc2, hc3⟩
      exact h3 hsc (firstSeg_colon hc2 hc3)
  · rw [if_pos hsc, if_pos hsc, if_neg (fun hc => hsc hc.1)]

/-! ### C2 round-trip: authority reconstruction -/

theorem digit_not_colon {c : Char} (h : c.isDigit = true) : c ≠ ':' := by
  rintro rfl
  exact absurd h (by decide)

theorem digit_not_regstop {c : Char} (h : c.isDigit = true) : isRegStop c = false := by
  simp only [isRegStop, Bool.or_eq_false_iff, beq_eq_false_iff_ne, ne_eq]
  refine ⟨⟨?_, ?_⟩, ?_⟩ <;> rintro rfl <;> exact absurd h (by decide)

theorem digit_not_at {c : Char} (h : c.isDigit = true) : c ≠ '@' := by
  rintro rfl
  exact absurd h (by decide)

theorem hostportSer_po {u : URL} (hpo : u.port ≠ []) :
    hostportSer u = u.host ++ ':' :: u.port := by
  unfold hostportSer
  rw [if_pos hpo]

theorem hostportSer_none {u : URL} (hpo : u.port = [])
    (hl : lastColonSplit u.host = none) : hostportSer u = u.host := by
  unfold hostportSer
  rw [if_neg (by simp [hpo]), hl]

theorem hostportSer_some {u : URL} {p : Str × Str} (hpo : u.port = [])
    (hl : lastColonSplit u.host = some p) :
    hostportSer u = if ¬p.2.isEmpty = true ∧ p.2.all Char.isDigit = true
                    then u.host ++ [':'] else u.host := by
  unfold hostportSer
  rw [if_neg (by simp [hpo]), hl]

theorem lastColonSplit_suffix_ne_nil {h : Str} {p : Str × Str}
    (hl : lastColonSplit h = some p) (hlast : h.getLast? ≠ some ':') : p.2 ≠ [] := by
  intro hp
  apply hlast
  simp only [lastColonSplit] at hl
  by_cases he : h.reverse.dropWhile (fun c => c != ':') = []
  · rw [if_pos he] at hl
    cases hl
  · rw [if_neg he] at hl
    have hp2 : (h.reverse.takeWhile (fun c => c != ':')).reverse = p.2 := by
      cases hl
      rfl
    rw [← hp2] at hp
    have ht : h.reverse.takeWhile (fun c => c != ':') = [] := by
      simpa using hp
    rw [List.getLast?_eq_head?_reverse]
    cases hr : h.reverse with
    | nil =>
      rw [hr] at he
      simp at he
    | cons c t =>
      rw [hr] at ht
      by_cases hcc : (c != ':') = true
      · rw [List.takeWhile_cons_of_pos (p := fun x => x != ':') hcc] at ht
        cases ht
      · have hc : c = ':' := by simpa using hcc
        rw [List.head?_cons, hc]

theorem hostportSer_roundtrip (u : URL) (inv : ParseInv u)
    (hsafe : ¬(u.port = [] ∧ u.host.getLast? = some ':')) :
    portResplit (hostportSer u) [] = (u.host, u.port) := by
  by_cases hpo : u.port = []
  · cases hl : lastColonSplit u.host with
    | none =>
      rw [hostportSer_none hpo hl, portResplit_eq_none hl, hpo]
    | some p =>
      have hsuf : p.2 ≠ [] := lastColonSplit_suffix_ne_nil hl (fun he => hsafe ⟨hpo, he⟩)
      rw [hostportSer_some hpo hl]
      split_ifs with hcond
      · rw [portResplit_eq_some (lastColonSplit_append (b := []) (by simp))]
        rw [if_pos (by simp), hpo]
      · rw [portResplit_eq_some hl,
            if_neg (fun hor => by
              rcases (Bool.or_eq_true _ _).mp hor with h1 | h1
              · exact hsuf (by simpa [List.isEmpty_iff] using h1)
              · exact hcond ⟨by simpa [List.isEmpty_iff] using hsuf, h1⟩),
            hpo]
  · rw [hostportSer_po hpo]
    have hb : ∀ c ∈ u.port, c ≠ ':' := fun c hc => digit_not_colon (inv.poDigit c hc)
    rw [portResplit_eq_some (lastColonSplit_append hb)]
    rw [if_pos (by
      refine (Bool.or_eq_true _ _).mpr (Or.inr ?_)
      exact List.all_eq_true.mpr fun c hc => inv.poDigit c hc)]

theorem hostportSer_chars (u : URL) (inv : ParseInv u) :
    ∀ c ∈ hostportSer u, isRegStop c = false := by
  intro c hc
  by_cases hpo : u.port = []
  · cases hl : lastColonSplit u.host with
    | none =>
      rw [hostportSer_none hpo hl] at hc
      exact inv.hOk c hc
    | some p =>
      rw [hostportSer_some hpo hl] at hc
      split_ifs at hc with h2
      · rcases List.mem_append.mp hc with h | h
        · exact inv.hOk c h
        · rcases List.mem_cons.mp h with h | h
          · subst h
            rfl
          · cases h
      · exact inv.hOk c hc
  · rw [hostportSer_po hpo] at hc
    rcases List.mem_append.mp hc with h | h
    · exact inv.hOk c h
    · rcases List.mem_cons.mp h with h | h
      · subst h
        rfl
      · exact digit_not_regstop (inv.poDigit c h)

theorem hostportSer_no_at (u : URL) (inv : ParseInv u) (hh : '@' ∉ u.host) :
    ∀ c ∈ hostportSer u, c ≠ '@' := by
  intro c hc
  by_cases hpo : u.port = []
  · cases hl : lastColonSplit u.host with
    | none =>
      rw [hostportSer_none hpo hl] at hc
      exact fun he => hh (he ▸ hc)
    | some p =>
      rw [hostportSer_some hpo hl] at hc
      split_ifs at hc with h2
      · rcases List.mem_append.mp hc with h | h
        · exact fun he => hh (he ▸ h)
        · rcases List.mem_cons.mp h with h | h
          · subst h
            decide
          · cases h
      · exact fun he => hh (he ▸ hc)
  · rw [hostportSer_po hpo] at hc
    rcases List.mem_append.mp hc with h | h
    · exact fun he => hh (he ▸ h)
    · rcases List.mem_cons.mp h with h | h
      · subst h
        decide
      · exact digit_not_at (inv.poDigit c h)

theorem fpTail_head (u : URL) : ∀ c, (fpTail u).head? = some c → isPQ c = true := by
  unfold fpTail
  by_cases hq : u.query = []
  · rw [if_neg (by simp [hq]), List.nil_append]
    by_cases hf : u.fragment = []
    · rw [if_neg (by simp [hf])]
      intro c hc
      cases hc
    · rw [if_pos (by simp [hf])]
      intro c hc
      cases hc
      rfl
  · rw [if_pos (by simp [hq])]
    intro c hc
    cases hc
    rfl

theorem splitQF (u : URL) (inv : ParseInv u) :
    splitQuery (fpTail u) =
      (u.query, if u.fragment ≠ [] then '#' :: u.fragment else []) ∧
    splitFragment (if u.fragment ≠ [] then '#' :: u.fragment else []) = u.fragment := by
  by_cases hq : u.query = [] <;> by_cases hf : u.fragment = []
  · rw [if_neg (by simp [hf])]
    constructor
    · rw [show fpTail u = [] by simp [fpTail, hq, hf], splitQuery_nil, hq]
    · rw [splitFragment_nil, hf]
  · rw [if_pos (by simp [hf])]
    constructor
    · rw [show fpTail u = '#' :: u.fragment by simp [fpTail, hq, hf], splitQuery_hash, hq]
    · rw [splitFragment_hash]
  · rw [if_neg (by simp [hf])]
    constructor
    · rw [show fpTail u = '?' :: (u.query ++ []) by simp [fpTail, hq, hf]]
      rw [splitQuery_query inv.qOk (fun c hc => by cases hc)]
    · rw [splitFragment_nil, hf]
  · rw [if_pos (by simp [hf])]
    constructor
    · rw [show fpTail u = '?' :: (u.query ++ '#' :: u.fragment) by simp [fpTail, hq, hf]]
      rw [splitQuery_query inv.qOk (fun c hc => by cases hc; rfl)]
    · rw [splitFragment_hash]

/-! ### C2 round-trip: the main theorem -/

theorem isPQ_isRegStop {c : Char} (h : isPQ c = true) : isRegStop c = true := by
  simp only [isPQ, Bool.or_eq_true, beq_iff_eq] at h
  simp only [isRegStop, Bool.or_eq_true, beq_iff_eq]
  tauto

theorem isPQ_isStop {c : Char} (h : isPQ c = true) : isStop c = true := by
  simp only [isPQ, Bool.or_eq_true, beq_iff_eq] at h
  simp only [isStop, Bool.or_eq_true, beq_iff_eq]
  tauto

theorem isPQ_ne_colon {c : Char} (h : isPQ c = true) : c ≠ ':' := by
  rintro rfl
  exact absurd h (by decide)

theorem caseB_noscheme (u : URL) (inv : ParseInv u)
    (h3 : ':' ∉ u.path.takeWhile (fun c => c != '/')) :
    splitScheme (u.path ++ fpTail u) = ([], u.path ++ fpTail u) := by
  apply splitScheme_noscheme
  intro c hc
  have hsplit := List.takeWhile_append_dropWhile (fun c => c != '/') u.path
  have hfs : ∀ x ∈ u.path.takeWhile (fun c => c != '/'), (!isStop x) = true := by
    intro x hx
    have hx1 : x ≠ '/' := by simpa using List.mem_takeWhile_imp hx
    have hx2 : isPQ x = false := inv.paOk x (mem_of_mem_takeWhile hx)
    have hx3 : x ≠ ':' := fun he => h3 (he ▸ hx)
    simp only [isPQ, Bool.or_eq_false_iff, beq_eq_false_iff_ne, ne_eq] at hx2
    simp only [isStop, Bool.not_eq_true', Bool.or_eq_false_iff, beq_eq_false_iff_ne, ne_eq]
    exact ⟨⟨⟨hx3, hx1⟩, hx2.1⟩, hx2.2⟩
  rw [← hsplit, List.append_assoc, List.dropWhile_append_of_pos hfs] at hc
  cases hd : u.path.dropWhile (fun c => c != '/') with
  | nil =>
    rw [hd, List.nil_append] at hc
    cases hft : fpTail u with
    | nil =>
      rw [hft] at hc
      cases hc
    | cons a tt =>
      have ha := fpTail_head u a (by rw [hft]; rfl)
      rw [hft, List.dropWhile_cons_of_neg (by simp [isPQ_isStop ha])] at hc
      rw [List.head?_cons] at hc
      cases hc
      exact isPQ_ne_colon ha
  | cons a t =>
    have ha : (a != '/') = false := by
      have hw := List.head?_dropWhile_not (fun c => c != '/') u.path
      rw [hd] at hw
      simpa using hw
    have ha2 : a = '/' := by simpa using ha
    subst ha2
    rw [hd, List.cons_append, List.dropWhile_cons_of_neg (by decide)] at hc
    rw [List.head?_cons] at hc
    cases hc
    decide

theorem fpTail_head_ne_slash (u : URL) : ∀ c, (fpTail u).head? = some c → c ≠ '/' := by
  intro c hc
  have hh := fpTail_head u c hc
  rintro rfl
  exact absurd hh (by decide)

theorem caseB_take2 (u : URL) (h2 : u.path.take 2 ≠ ['/', '/']) :
    (u.path ++ fpTail u).take 2 ≠ ['/', '/'] := by
  intro hx
  cases hpa : u.path with
  | nil =>
    rw [hpa, List.nil_append] at hx
    have hh : (fpTail u).head? = some '/' := by
      cases hft : fpTail u with
      | nil =>
        rw [hft] at hx
        cases hx
      | cons a t =>
        rw [hft, List.take_succ_cons] at hx
        injection hx with ha _
        rw [List.head?_cons, ha]
    exact fpTail_head_ne_slash u '/' hh rfl
  | cons a t =>
    cases t with
    | nil =>
      rw [hpa, List.cons_append, List.nil_append, List.take_succ_cons] at hx
      injection hx with ha hrest
      have hh : (fpTail u).head? = some '/' := by
        cases hft : fpTail u with
        | nil =>
          rw [hft] at hrest
          cases hrest
        | cons b tb =>
          rw [hft, List.take_succ_cons] at hrest
          injection hrest with hb _
          rw [List.head?_cons, hb]
      exact fpTail_head_ne_slash u '/' hh rfl
    | cons b t2 =>
      apply h2
      rw [hpa, List.cons_append, List.cons_append] at hx
      rw [hpa]
      rw [List.take_succ_cons, List.take_succ_cons] at hx ⊢
      simpa using hx

theorem full_path_head (u : URL) (inv : ParseInv u)
    (hne : u.userinfo ≠ [] ∨ u.host ≠ [] ∨ u.port ≠ []) :
    ∀ c, (full_path u).head? = some c → isRegStop c = true := by
  rw [full_path_eq]
  rcases inv.authPa hne with hpa | hpa
  · rw [hpa, List.nil_append]
    intro c hc
    exact isPQ_isRegStop (fpTail_head u c hc)
  · intro c hc
    cases hpp : u.path with
    | nil =>
      rw [hpp] at hpa
      cases hpa
    | cons a t =>
      rw [hpp, List.cons_append, List.head?_cons] at hc
      cases hc
      rw [hpp, List.head?_cons] at hpa
      have ha := Option.some.inj hpa
      subst ha
      decide

theorem parse_relative (u : URL) (inv : ParseInv u)
    (hui : u.userinfo = []) (hh : u.host = []) (hpo : u.port = [])
    (h2 : u.path.take 2 ≠ ['/', '/'])
    (h3 : u.scheme = [] → ':' ∉ u.path.takeWhile (fun c => c != '/')) :
    parse ((if u.scheme ≠ [] then u.scheme ++ [':'] else []) ++ (u.path ++ fpTail u)) = u := by
  have htake2 : (u.path ++ fpTail u).take 2 ≠ ['/', '/'] := caseB_take2 u h2
  obtain ⟨hQ, hF⟩ := splitQF u inv
  have hP : splitPath (u.path ++ fpTail u) = (u.path, fpTail u) :=
    splitPath_append inv.paOk (fpTail_head u)
  have hAu : splitAuthority (u.path ++ fpTail u) = ([], [], u.path ++ fpTail u) :=
    splitAuthority_noslash htake2
  by_cases hsc : u.scheme = []
  · rw [if_neg (by simp [hsc]), List.nil_append]
    have hS : splitScheme (u.path ++ fpTail u) = ([], u.path ++ fpTail u) :=
      caseB_noscheme u inv (h3 hsc)
    show urlNew (some _) [] [] [] [] [] [] [] = u
    simp only [urlNew, rawSplit, hS, hAu, hP, hQ, hF, portResplit_nil]
    rw [show u = ⟨u.scheme, u.userinfo, u.host, u.port, u.path, u.query, u.fragment⟩ from rfl]
    simp only [URL.mk.injEq]
    and_intros <;>
      first
        | trivial
        | rfl
        | exact hui.symm
        | exact hpo.symm
        | exact inv.scLower
        | exact inv.hLower
        | (rw [hsc]; rfl)
        | (rw [hh]; rfl)
  · rw [if_pos hsc]
    rw [show (u.scheme ++ [':']) ++ (u.path ++ fpTail u) =
        u.scheme ++ ':' :: (u.path ++ fpTail u) by simp]
    have hS := splitScheme_scheme (r := u.path ++ fpTail u) hsc inv.scStop
    show urlNew (some _) [] [] [] [] [] [] [] = u
    simp only [urlNew, rawSplit, hS, hAu, hP, hQ, hF, portResplit_nil]
    rw [show u = ⟨u.scheme, u.userinfo, u.host, u.port, u.path, u.query, u.fragment⟩ from rfl]
    simp only [URL.mk.injEq]
    and_intros <;>
      first
        | trivial
        | rfl
        | exact hui.symm
        | exact hpo.symm
        | exact inv.scLower
        | exact inv.hLower
        | (rw [hsc]; rfl)
        | (rw [hh]; rfl)

theorem parse_absolute (u : URL) (inv : ParseInv u) (hA : authority u ≠ [])
    (hs2 : ¬(u.port = [] ∧ u.host.getLast? = some ':'))
    (hs3 : ¬(u.userinfo = [] ∧ '@' ∈ u.host)) :
    parse ((if u.scheme ≠ [] then u.scheme ++ [':'] else []) ++
      ('/' :: '/' :: (authority u ++ full_path u))) = u := by
  have hne : u.userinfo ≠ [] ∨ u.host ≠ [] ∨ u.port ≠ [] := by
    by_contra hcon
    push_neg at hcon
    exact hA ((authority_empty_iff u).mpr ⟨hcon.1, hcon.2.1, hcon.2.2⟩)
  have hPhead := full_path_head u inv hne
  have hAu : splitAuthority ('/' :: '/' :: (authority u ++ full_path u)) =
      (u.userinfo, hostportSer u, full_path u) := by
    unfold authority
    by_cases hui : u.userinfo = []
    · rw [if_neg (by simp [hui]), hui]
      exact splitAuthority_nouserinfo
        (fun c hc => ⟨hostportSer_chars u inv c hc,
                      hostportSer_no_at u inv (fun hm => hs3 ⟨hui, hm⟩) c hc⟩)
        hPhead
    · rw [if_pos hui]
      exact splitAuthority_userinfo inv.uiOk (hostportSer_chars u inv) hPhead
  have hP : splitPath (full_path u) = (u.path, fpTail u) := by
    rw [full_path_eq]
    exact splitPath_append inv.paOk (fpTail_head u)
  obtain ⟨hQ, hF⟩ := splitQF u inv
  have hHP := hostportSer_roundtrip u inv hs2
  by_cases hsc : u.scheme = []
  · rw [if_neg (by simp [hsc]), List.nil_append]
    have hS : splitScheme ('/' :: '/' :: (authority u ++ full_path u)) =
        ([], '/' :: '/' :: (authority u ++ full_path u)) := by
      apply splitScheme_noscheme
      intro c hc
      rw [List.dropWhile_cons_of_neg (by decide)] at hc
      rw [List.head?_cons] at hc
      cases hc
      decide
    show urlNew (some _) [] [] [] [] [] [] [] = u
    simp only [urlNew, rawSplit, hS, hAu, hP, hQ, hF, hHP]
    rw [show u = ⟨u.scheme, u.userinfo, u.host, u.port, u.path, u.query, u.fragment⟩ from rfl]
    simp only [URL.mk.injEq]
    and_intros <;>
      first
        | trivial
        | rfl
        | exact hui.symm
        | exact hpo.symm
        | exact inv.scLower
        | exact inv.hLower
        | (rw [hsc]; rfl)
        | (rw [hh]; rfl)
  · rw [if_pos hsc]
    rw [show (u.scheme ++ [':']) ++ ('/' :: '/' :: (authority u ++ full_path u)) =
        u.scheme ++ ':' :: ('/' :: '/' :: (authority u ++ full_path u)) by simp]
    have hS := splitScheme_scheme
      (r := '/' :: '/' :: (authority u ++ full_path u)) hsc inv.scStop
    show urlNew (some _) [] [] [] [] [] [] [] = u
    simp only [urlNew, rawSplit, hS, hAu, hP, hQ, hF, hHP]
    rw [show u = ⟨u.scheme, u.userinfo, u.host, u.port, u.path, u.query, u.fragment⟩ from rfl]
    simp only [URL.mk.injEq]
    and_intros <;>
      first
        | trivial
        | rfl
        | exact hui.symm
        | exact hpo.symm
        | exact inv.scLower
        | exact inv.hLower
        | (rw [hsc]; rfl)
        | (rw [hh]; rfl)

theorem roundtrip_of_inv (u : URL) (inv : ParseInv u) (hs : roundtripSafe u) :
    parse (as_string u) = u := by
  obtain ⟨hs1, hs2, hs3⟩ := hs
  by_cases hA : authority u = []
  · obtain ⟨hui, hh, hpo⟩ := (authority_empty_iff u).mp hA
    rcases hs1 with h1 | ⟨h2, h3⟩
    · exact absurd hA h1
    rw [as_string_no_authority u hA h2 h3, full_path_eq]
    exact parse_relative u inv hui hh hpo h2 h3
  · rw [as_string_authority u hA]
    exact parse_absolute u inv hA hs2 hs3

/-- C2 counterexample: the parsed value of `//a::` has the non-empty
authority `a:` — the claim's precondition holds — yet it serializes to
`//a:`, whose re-parse stores host `a` instead of `a:`: the round trip is
not structural equality.  The input `//@a@b` (empty userinfo, host `a@b`,
non-empty authority) fails the same way: it serializes to `//a@b`, which
re-parses with userinfo `a` and host `b`. -/
theorem roundtrip_counterexample :
    (authority (parse (str (r"//a::"))) ≠ [] ∧
     as_string (parse (str (r"//a::"))) = str (r"//a:") ∧
     parse (as_string (parse (str (r"//a::")))) ≠ parse (str (r"//a::"))) ∧
    (authority (parse (str (r"//@a@b"))) ≠ [] ∧
     parse (as_string (parse (str (r"//@a@b")))) ≠ parse (str (r"//@a@b"))) := by decide

/-- C2 amended: `parse` is total by construction, and
`parse (to_string (parse s))` equals `parse s` as a 7-tuple under the
claim's disambiguation precondition strengthened by the two conditions its
counterexamples force: the parsed host must not end in a colon while the
port is empty, and must not contain `@` while the userinfo is empty. -/
theorem parse_roundtrip (s : Str) (h : roundtripSafe (parse s)) :
    parse (as_string (parse s)) = parse s :=
  roundtrip_of_inv (parse s) (parse_inv s) h

theorem parse_roundtrip_witness :
    roundtripSafe (parse (str (r"http://user@ex.com:80/p?q#f"))) ∧
    parse (as_string (parse (str (r"http://user@ex.com:80/p?q#f")))) =
      parse (str (r"http://user@ex.com:80/p?q#f")) :=
  ⟨by decide, parse_roundtrip _ (by decide)⟩

end Yurl
